import Mathlib

/-!
# A shallow embedding of taboola/mesos_exporter's master-state collector

This file embeds the snapshot-to-metrics mapping engine of
`master_state.go` in Lean 4 and proves the specification's claims about
it.  Go machine integers (`uint64`) are modelled as `Nat` with explicit
`% 2^64` where the source wraps; Go `float64` resource quantities are
modelled as exact rationals (`Rat`); fallible parsing returns a pair of
the (mutated) receiver and an optional error, mirroring the pointer
receiver plus `error` return of the Go method.

Helpers of the repository that are not part of `master_state.go`
(`normaliseLabel`, `normaliseLabelList`, `attributeString`,
`stringInSlice`, `getLabelValuesFromMap`, the `resources` struct, the
`settableCounterVec` type and `fetchAndDecode`) are modelled from the
spec; each such definition carries a doc comment saying so.
-/

/-! ## Byte/string helpers (Go `bytes` and `strconv` standard library) -/

/-- The wrap-around modulus of Go's `uint64`. -/
def UINT64 : Nat := 2 ^ 64

/-- Drop the trailing characters satisfying `p` (helper for `bytes.Trim`). -/
def trimRight (p : Char → Bool) (s : List Char) : List Char :=
  (s.reverse.dropWhile p).reverse

/-- `bytes.Trim(s, cut)`: remove the leading and trailing characters that
occur in the cutset `cut`. -/
def goTrim (cut : List Char) (s : List Char) : List Char :=
  trimRight (fun c => cut.contains c) (s.dropWhile (fun c => cut.contains c))

/-- Go's `unicode.IsSpace` on the Latin-1 range: `\t`, `\n`, `\v`, `\f`,
`\r`, space, NEL and NBSP.  (White_Space code points above Latin-1 are
not modelled; no claim depends on them.) -/
def isGoSpace (c : Char) : Bool :=
  c == ' ' || c == '\t' || c == '\n' || c == '\x0b' || c == '\x0c' ||
    c == '\r' || c == '\x85' || c == '\xa0'

/-- `bytes.TrimSpace`: remove leading and trailing whitespace. -/
def goTrimSpace (s : List Char) : List Char :=
  trimRight isGoSpace (s.dropWhile isGoSpace)

/-- `bytes.SplitN(s, sep, 2)`: split at the first occurrence of `sep`
only; a separator-free input yields the one-element list `[s]`. -/
def splitN2 (sep : Char) (s : List Char) : List (List Char) :=
  let pre := s.takeWhile (fun c => !(c == sep))
  if pre.length = s.length then [s] else [pre, s.drop (pre.length + 1)]

/-- One decimal digit for `strconv.ParseUint(_, 10, 64)`. -/
def digitVal (c : Char) : Option Nat :=
  if decide ('0' ≤ c) && decide (c ≤ '9') then some (c.toNat - '0'.toNat) else none

/-- The accumulation loop of `strconv.ParseUint(_, 10, 64)`: fails on a
non-digit character and on overflow past `2^64 - 1`. -/
def parseUintLoop : Nat → List Char → Option Nat
  | acc, [] => some acc
  | acc, c :: cs =>
    match digitVal c with
    | none => none
    | some d => if acc * 10 + d < UINT64 then parseUintLoop (acc * 10 + d) cs else none

/-- `strconv.ParseUint(string(s), 10, 64)`: a nonempty all-digit string
denoting a value below `2^64`, otherwise an error (`none`).  (Go's
`ParseUint` permits no sign prefix.) -/
def parseUint64 (s : List Char) : Option Nat :=
  match s with
  | [] => none
  | _ => parseUintLoop 0 s

/-! ## The Range Codec: `ranges`, `UnmarshalJSON`, `size` -/

/-- `type ranges [][2]uint64`: a list of inclusive `[lo, hi]` pairs.
Both components are `uint64` values, i.e. below `2^64`. -/
abbrev ranges := List (Nat × Nat)

/-- The errors `ranges.UnmarshalJSON` can return: `fmt.Errorf("bad range: %s", r)`
for a token that does not split into two parts, and the `strconv` error
for a bound that fails `ParseUint`. -/
inductive rangeErr
  | badRange (r : List Char)
  | numErr (s : List Char)
deriving DecidableEq

/-- The cutset `` `[]"` `` trimmed by `ranges.UnmarshalJSON`. -/
def cutset : List Char := ['[', ']', '"']

/-- The token loop of `ranges.UnmarshalJSON`: for each comma-separated
token, split at the first `-`; a token without two parts or with a bound
rejected by `ParseUint` stops the loop with an error, a good token is
appended to the receiver (`*rs = append(*rs, rng)`). -/
def unmarshalLoop : ranges → List (List Char) → ranges × Option rangeErr
  | rs, [] => (rs, none)
  | rs, r :: rest =>
    match splitN2 '-' r with
    | [a, b] =>
      match parseUint64 (goTrimSpace a) with
      | none => (rs, some (rangeErr.numErr (goTrimSpace a)))
      | some lo =>
        match parseUint64 (goTrimSpace b) with
        | none => (rs, some (rangeErr.numErr (goTrimSpace b)))
        | some hi => unmarshalLoop (rs ++ [(lo, hi)]) rest
    | _ => (rs, some (rangeErr.badRange r))

/-- `func (rs *ranges) UnmarshalJSON(data []byte) error`: trim the
bracket/quote decoration; an empty remainder parses to no ranges; else
run the token loop over the comma-separated tokens.  The first component
of the result is the final state of the pointer receiver `*rs`, the
second the returned error. -/
def rangesUnmarshalJSON (rs : ranges) (data : List Char) : ranges × Option rangeErr :=
  match goTrim cutset data with
  | [] => (rs, none)
  | d => unmarshalLoop rs (d.splitOn ',')

/-- `func (rs ranges) size() uint64`: `sz += 1 + (rs[i][1] - rs[i][0])`
with `uint64` (wrap-around) subtraction and addition. -/
def ranges.size (rs : ranges) : Nat :=
  rs.foldl (fun sz p => (sz + (1 + (p.2 + UINT64 - p.1) % UINT64) % UINT64) % UINT64) 0

/-- A token is well-formed when it splits into exactly two `-`-delimited
parts and both trimmed bounds pass `ParseUint`. -/
def tokenOk (r : List Char) : Bool :=
  match splitN2 '-' r with
  | [a, b] => (parseUint64 (goTrimSpace a)).isSome && (parseUint64 (goTrimSpace b)).isSome
  | _ => false

/-- The pair a well-formed token parses to (`(0, 0)` on ill-formed
tokens, which `unmarshalLoop` never appends). -/
def tokenPair (r : List Char) : Nat × Nat :=
  match splitN2 '-' r with
  | [a, b] => ((parseUint64 (goTrimSpace a)).getD 0, (parseUint64 (goTrimSpace b)).getD 0)
  | _ => (0, 0)

/-- The comma-separated tokens `ranges.UnmarshalJSON` iterates over
(none when the trimmed input is empty). -/
def unmarshalTokens (data : List Char) : List (List Char) :=
  match goTrim cutset data with
  | [] => []
  | d => d.splitOn ','

theorem unmarshalLoop_cons_ok (r : List Char) (hr : tokenOk r = true)
    (rs : ranges) (rest : List (List Char)) :
    unmarshalLoop rs (r :: rest) = unmarshalLoop (rs ++ [tokenPair r]) rest := by
  unfold tokenOk at hr
  rcases hsp : splitN2 '-' r with _ | ⟨a, _ | ⟨b, _ | _⟩⟩ <;>
    rw [hsp] at hr <;> simp only [] at hr
  · exact absurd hr (by simp)
  · exact absurd hr (by simp)
  · rcases hpa : parseUint64 (goTrimSpace a) with _ | lo <;> rw [hpa] at hr
    · exact absurd hr (by simp)
    · rcases hpb : parseUint64 (goTrimSpace b) with _ | hi <;> rw [hpb] at hr
      · exact absurd hr (by simp)
      · have hp : tokenPair r = (lo, hi) := by
          simp [tokenPair, hsp, hpa, hpb]
        rw [hp]
        simp only [unmarshalLoop, hsp, hpa, hpb]
  · exact absurd hr (by simp)

theorem unmarshalLoop_cons_bad (r : List Char) (hr : tokenOk r = false)
    (rs : ranges) (rest : List (List Char)) :
    (unmarshalLoop rs (r :: rest)).1 = rs ∧ (unmarshalLoop rs (r :: rest)).2.isSome = true := by
  unfold tokenOk at hr
  rcases hsp : splitN2 '-' r with _ | ⟨a, _ | ⟨b, _ | _⟩⟩ <;>
    rw [hsp] at hr <;> simp only [] at hr <;> simp only [unmarshalLoop, hsp]
  · simp
  · simp
  · rcases hpa : parseUint64 (goTrimSpace a) with _ | lo
    · simp
    · rcases hpb : parseUint64 (goTrimSpace b) with _ | hi
      · simp
      · rw [hpa, hpb] at hr
        simp at hr
  · simp

/-- Characterisation of the token loop: the receiver gains exactly the
pairs of the longest well-formed token prefix, and the loop succeeds iff
every token is well-formed. -/
theorem unmarshalLoop_spec (ts : List (List Char)) (rs : ranges) :
    (unmarshalLoop rs ts).1 = rs ++ (ts.takeWhile tokenOk).map tokenPair
    ∧ ((unmarshalLoop rs ts).2 = none ↔ ∀ r ∈ ts, tokenOk r = true) := by
  induction ts generalizing rs with
  | nil => simp [unmarshalLoop]
  | cons r rest ih =>
    by_cases hr : tokenOk r = true
    · rw [unmarshalLoop_cons_ok r hr]
      refine ⟨?_, ?_⟩
      · rw [(ih _).1, List.takeWhile_cons_of_pos hr]
        simp
      · rw [(ih _).2]
        simp [hr]
    · have hr' : tokenOk r = false := by simpa using hr
      obtain ⟨h1, h2⟩ := unmarshalLoop_cons_bad r hr' rs rest
      refine ⟨?_, ?_⟩
      · rw [h1, List.takeWhile_cons_of_neg (by simp [hr'])]
        simp
      · constructor
        · intro h
          rw [h] at h2
          simp at h2
        · intro h
          exact absurd (h r (by simp)) (by simp [hr'])

theorem addModHelper (acc t S U : Nat) :
    ((acc + t % U) % U + S) % U = (acc + (t + S)) % U := by
  rw [Nat.mod_add_mod, Nat.add_right_comm acc (t % U) S, Nat.add_mod_mod,
    Nat.add_right_comm acc S t, Nat.add_assoc]

/-- The accumulator form of `ranges.size`: with well-formed `uint64`
pairs (`lo ≤ hi < 2^64`) the wrap-around loop computes the plain sum of
pair widths, reduced modulo `2^64`. -/
theorem ranges_size_foldl (rs : ranges) (acc : Nat) (hacc : acc < UINT64)
    (h : ∀ p ∈ rs, p.1 ≤ p.2 ∧ p.2 < UINT64) :
    rs.foldl (fun sz p => (sz + (1 + (p.2 + UINT64 - p.1) % UINT64) % UINT64) % UINT64) acc
      = (acc + (rs.map (fun p => p.2 - p.1 + 1)).sum) % UINT64 := by
  induction rs generalizing acc with
  | nil => simp [Nat.mod_eq_of_lt hacc]
  | cons p rest ih =>
    obtain ⟨h1, h2⟩ := h p (by simp)
    have hterm : (p.2 + UINT64 - p.1) % UINT64 = p.2 - p.1 := by
      have hswap : p.2 + UINT64 - p.1 = (p.2 - p.1) + UINT64 := by omega
      rw [hswap, Nat.add_mod_right, Nat.mod_eq_of_lt (by omega)]
    have hpos : 0 < UINT64 := by norm_num [UINT64]
    simp only [List.foldl_cons, hterm]
    rw [ih _ (Nat.mod_lt _ hpos) (fun q hq => h q (by simp [hq]))]
    rw [addModHelper, Nat.add_comm 1 (p.2 - p.1)]
    simp [Nat.add_assoc]

/-- C7: for a range-list of well-formed `uint64` pairs (`lo ≤ hi`),
`size` is the sum of `hi - lo + 1` over all pairs (reduced modulo the
native unsigned width `2^64`), with overlapping pairs double-counted
since pairs are never merged; in particular `size(parse("0-3,10-12"))`
is `4 + 3 = 7`. -/
theorem ranges_size_sum :
    (∀ rs : ranges, (∀ p ∈ rs, p.1 ≤ p.2 ∧ p.2 < UINT64) →
        ranges.size rs = (rs.map (fun p => p.2 - p.1 + 1)).sum % UINT64)
    ∧ ranges.size (rangesUnmarshalJSON [] ("0-3,10-12".data)).1 = 7 := by
  constructor
  · intro rs h
    unfold ranges.size
    rw [ranges_size_foldl rs 0 (by norm_num [UINT64]) h]
    simp
  · decide

theorem ranges_size_sum_witness :
    ranges.size [(0, 3), (10, 12)]
      = ([((0 : Nat), (3 : Nat)), (10, 12)].map (fun p => p.2 - p.1 + 1)).sum % UINT64 :=
  ranges_size_sum.1 [(0, 3), (10, 12)] (by decide)

/-- C1 counterexample: parsing `"1-2,x"` returns a parse error, yet the
receiver is NOT left unchanged — the range from the token preceding the
malformed one has already been appended to it. -/
theorem rangesUnmarshalJSON_retains_prior_tokens_on_error :
    (rangesUnmarshalJSON [] ("1-2,x".data)).1 = [(1, 2)]
    ∧ (rangesUnmarshalJSON [] ("1-2,x".data)).2.isSome = true := by
  constructor <;> decide

/-- C1 (amended): a parse error aborts the token loop at the first
malformed token — no token at or after it contributes — but the ranges
parsed from the tokens preceding it remain appended to the receiver;
parsing succeeds iff every token is well-formed. -/
theorem rangesUnmarshalJSON_aborts_at_first_bad_token :
    ∀ (rs : ranges) (data : List Char), goTrim cutset data ≠ [] →
      (rangesUnmarshalJSON rs data).1
          = rs ++ ((((goTrim cutset data).splitOn ',').takeWhile tokenOk).map tokenPair)
      ∧ ((rangesUnmarshalJSON rs data).2 = none
          ↔ ∀ r ∈ (goTrim cutset data).splitOn ',', tokenOk r = true) := by
  intro rs data hne
  rcases hd : goTrim cutset data with _ | ⟨c, cs⟩
  · exact absurd hd hne
  · have heq : rangesUnmarshalJSON rs data = unmarshalLoop rs ((c :: cs).splitOn ',') := by
      simp only [rangesUnmarshalJSON, hd]
    rw [heq]
    exact unmarshalLoop_spec _ rs

theorem rangesUnmarshalJSON_aborts_witness :
    (rangesUnmarshalJSON [] ("1-2,x,3-4".data)).1
      = [] ++ ((((goTrim cutset ("1-2,x,3-4".data)).splitOn ',').takeWhile tokenOk).map tokenPair) :=
  (rangesUnmarshalJSON_aborts_at_first_bad_token [] ("1-2,x,3-4".data) (by decide)).1

/-- C8: empty input parses to no ranges with no error; any malformed
token (no `-` separator, or a bound rejected by `ParseUint`) makes the
parse return an error; in particular `"abc"`, `"5"` and `"5-"` fail. -/
theorem parse_rejects_malformed_tokens :
    (∀ rs : ranges, rangesUnmarshalJSON rs [] = (rs, none))
    ∧ (∀ (rs : ranges) (data : List Char),
        (∃ r ∈ unmarshalTokens data, tokenOk r = false) →
        (rangesUnmarshalJSON rs data).2.isSome = true)
    ∧ (rangesUnmarshalJSON [] ("abc".data)).2.isSome = true
    ∧ (rangesUnmarshalJSON [] ("5".data)).2.isSome = true
    ∧ (rangesUnmarshalJSON [] ("5-".data)).2.isSome = true := by
  refine ⟨fun rs => rfl, ?_, by decide, by decide, by decide⟩
  rintro rs data ⟨r, hr, hbad⟩
  unfold unmarshalTokens at hr
  rcases hd : goTrim cutset data with _ | ⟨c, cs⟩
  · rw [hd] at hr
    simp at hr
  · rw [hd] at hr
    simp only [] at hr
    have heq : rangesUnmarshalJSON rs data = unmarshalLoop rs ((c :: cs).splitOn ',') := by
      simp only [rangesUnmarshalJSON, hd]
    rw [heq]
    have hspec := (unmarshalLoop_spec ((c :: cs).splitOn ',') rs).2
    rcases ho : (unmarshalLoop rs ((c :: cs).splitOn ',')).2 with _ | e
    · exact absurd ((hspec.mp ho) r hr) (by simp [hbad])
    · simp [ho]

theorem parse_rejects_malformed_tokens_witness :
    (rangesUnmarshalJSON [] ("7,1-2".data)).2.isSome = true :=
  parse_rejects_malformed_tokens.2.1 [] ("7,1-2".data) ⟨"7".data, by decide, by decide⟩

/-! ## The Attribute Normalizer (helpers not under `master_state.go`) -/

/-- A character legal in a metric label identifier: `[A-Za-z0-9_]`. -/
def isAllowedLabelChar (c : Char) : Bool :=
  (decide ('a' ≤ c) && decide (c ≤ 'z')) || (decide ('A' ≤ c) && decide (c ≤ 'Z')) ||
    (decide ('0' ≤ c) && decide (c ≤ '9')) || c == '_'

/-- Modelled from the spec: `normaliseLabel` (not under src/) turns an
arbitrary attribute key into a safe identifier by replacing any
character outside `[A-Za-z0-9_]` with `_`. -/
def normaliseLabel (s : String) : String :=
  String.mk (s.data.map (fun c => if isAllowedLabelChar c then c else '_'))

/-- Modelled from the spec: `normaliseLabelList` (not under src/)
normalises each attribute name of the allow-list. -/
def normaliseLabelList (ls : List String) : List String :=
  ls.map normaliseLabel

theorem normaliseLabel_char_idem (c : Char) :
    (fun c => if isAllowedLabelChar c then c else '_')
        ((fun c => if isAllowedLabelChar c then c else '_') c)
      = (fun c => if isAllowedLabelChar c then c else '_') c := by
  by_cases h : isAllowedLabelChar c = true
  · simp [h]
  · simp [h]

/-- C10: the attribute-name normalizer replaces every character outside
`[A-Za-z0-9_]` with `_` (so `normalize("rack-id") = "rack_id"`), is
idempotent, and identifies two names that differ only in disallowed
characters at the same positions. -/
theorem normaliseLabel_spec :
    normaliseLabel "rack-id" = "rack_id"
    ∧ (∀ x : String, normaliseLabel (normaliseLabel x) = normaliseLabel x)
    ∧ (∀ (x : String) (i : Nat), i < x.data.length →
        (normaliseLabel x).data.getD i '_'
          = (if isAllowedLabelChar (x.data.getD i '_') then x.data.getD i '_' else '_'))
    ∧ (∀ x y : String,
        List.Forall₂
          (fun a b => a = b ∨ (isAllowedLabelChar a = false ∧ isAllowedLabelChar b = false))
          x.data y.data →
        normaliseLabel x = normaliseLabel y) := by
  refine ⟨by decide, ?_, ?_, ?_⟩
  · intro x
    unfold normaliseLabel
    simp only [List.map_map]
    congr 1
    exact List.map_congr_left (fun c _ => normaliseLabel_char_idem c)
  · intro x i hi
    unfold normaliseLabel
    simp only []
    rw [List.getD_eq_getElem?_getD, List.getD_eq_getElem?_getD,
      List.getElem?_map, List.getElem?_eq_getElem hi]
    simp
  · intro x y h
    have hmap : ∀ (as bs : List Char),
        List.Forall₂
          (fun a b => a = b ∨ (isAllowedLabelChar a = false ∧ isAllowedLabelChar b = false))
          as bs →
        as.map (fun c => if isAllowedLabelChar c then c else '_')
          = bs.map (fun c => if isAllowedLabelChar c then c else '_') := by
      intro as bs hab
      induction hab with
      | nil => rfl
      | cons hab _ ih =>
        simp only [List.map_cons, ih]
        rcases hab with rfl | ⟨ha, hb⟩
        · rfl
        · simp [ha, hb]
    unfold normaliseLabel
    congr 1
    exact hmap _ _ h

theorem normaliseLabel_spec_witness :
    ((normaliseLabel "a-b").data.getD 1 '_'
        = (if isAllowedLabelChar ("a-b".data.getD 1 '_') then "a-b".data.getD 1 '_' else '_'))
    ∧ normaliseLabel "a-b" = normaliseLabel "a.b" :=
  ⟨normaliseLabel_spec.2.2.1 "a-b" 1 (by decide),
    normaliseLabel_spec.2.2.2 "a-b" "a.b" (by decide)⟩

/-! ## Data model: `slave`, `framework`, `state` -/

/-- Modelled from the spec: a free-form attribute value
(`json.RawMessage` in the source) is a tagged variant — string, number,
boolean or other structured shape. -/
inductive attrValue
  | str (s : String)
  | num (q : Rat)
  | boolean (b : Bool)
  | other

/-- Modelled from the spec: `attributeString` (not under src/) accepts
only attribute values that are scalar strings; numeric, boolean or
structured values are an error, here `none`. -/
def attributeString : attrValue → Option String
  | .str s => some s
  | _ => none

/-- Modelled from the spec: the `resources` struct (not under src/) of a
node's pool — cpu shares, disk and memory as `float64` (here `Rat`,
disk and memory in KiB units), and the port pool as a range-list. -/
structure resources where
  cpus : Rat
  disk : Rat
  mem : Rat
  ports : ranges

/-- The `slave` struct of `master_state.go`: identity (`pid`,
`hostname`), the `used`/`unreserved`/`total` resource pools, and the
open attribute mapping (a Go `map[string]json.RawMessage`, modelled as
an association list). -/
structure slave where
  pid : String
  hostname : String
  used : resources
  unreserved : resources
  total : resources
  attributes : List (String × attrValue)

/-- The `framework_resources` struct of `master_state.go`. -/
structure framework_resources where
  cpus : Rat
  disk : Rat
  mem : Rat

/-- The `framework` struct of `master_state.go` (the `tasks` and
`completed_tasks` lists are never read by the collector and are
omitted). -/
structure framework where
  active : Bool
  name : String
  used : framework_resources
  offered : framework_resources

/-- The `state` struct of `master_state.go`: the decoded snapshot. -/
structure state where
  slaves : List slave
  frameworks : List framework

/-- The zero value of `state` (`var s state` before decoding). -/
def emptyState : state := { slaves := [], frameworks := [] }

/-! ## Go string-map model (for `prometheus.Labels`) -/

/-- A Go `map[string]string` as an association list with unique keys;
assignment updates the entry in place or inserts a fresh one. -/
def mapSet : List (String × String) → String → String → List (String × String)
  | [], k, v => [(k, v)]
  | p :: m, k, v => if p.1 == k then (k, v) :: m else p :: mapSet m k v

/-- Go map lookup: the stored value, or the zero value `""` when the key
is absent. -/
def mapGet (m : List (String × String)) (k : String) : String :=
  ((m.find? (fun p => p.1 == k)).map Prod.snd).getD ""

/-- Modelled from the spec: `stringInSlice` (not under src/) is plain
membership of a string in a slice. -/
def stringInSlice (a : String) (l : List String) : Bool :=
  l.contains a

/-- Modelled from the spec: `getLabelValuesFromMap` (not under src/)
reads the label value for each label name in order, the empty string
standing in for an absent key. -/
def getLabelValuesFromMap (m : List (String × String)) (ks : List String) : List String :=
  ks.map (mapGet m)

theorem mapGet_mapSet_self (m : List (String × String)) (k v : String) :
    mapGet (mapSet m k v) k = v := by
  induction m with
  | nil => simp [mapSet, mapGet, List.find?]
  | cons p m ih =>
    by_cases h : p.1 == k
    · simp [mapSet, h, mapGet, List.find?, (by simpa using h : p.1 = k)]
    · simpa [mapSet, h, mapGet, List.find?] using ih

theorem mapGet_mapSet_ne (m : List (String × String)) (k k' v : String) (h : k' ≠ k) :
    mapGet (mapSet m k v) k' = mapGet m k' := by
  induction m with
  | nil =>
    simp [mapSet, mapGet, List.find?, (by simpa using Ne.symm h : ¬ (k == k') = true)]
  | cons p m ih =>
    by_cases hp : p.1 == k
    · have hp' : p.1 = k := by simpa using hp
      simp [mapSet, hp, mapGet, List.find?, hp',
        (by simpa using Ne.symm h : ¬ (k == k') = true)]
    · by_cases hq : p.1 == k'
      · simp [mapSet, hp, mapGet, List.find?, hq]
      · simpa [mapSet, hp, mapGet, List.find?, hq] using ih

/-! ## Metric sample sets -/

/-- The mutable current value set of one metric descriptor: samples
keyed by the label-value tuple.  `prometheus.GaugeVec.Reset()` is the
empty set; `WithLabelValues(...).Set(v)` (and the settableCounterVec's
`Set`, modelled from the spec) store `v` under the tuple, inserting a
fresh sample when the tuple is new. -/
abbrev MetricState : Type := List (List String × Rat)

/-- Store value `v` under label tuple `k`, updating in place or
appending a fresh sample. -/
def gvSet : MetricState → List String → Rat → MetricState
  | [], k, v => [(k, v)]
  | p :: m, k, v => if p.1 == k then (k, v) :: m else p :: gvSet m k v

/-- The label tuples currently carrying a sample. -/
def msKeys (m : MetricState) : List (List String) :=
  m.map Prod.fst

/-- The sample value currently stored under a label tuple, if any. -/
def msLookup (m : MetricState) (k : List String) : Option Rat :=
  (m.find? (fun p => p.1 == k)).map Prod.snd

/-- The number of samples a metric currently carries. -/
def msCard (m : MetricState) : Nat :=
  m.length

theorem msKeys_gvSet (m : MetricState) (k : List String) (v : Rat) :
    msKeys (gvSet m k v) = if k ∈ msKeys m then msKeys m else msKeys m ++ [k] := by
  induction m with
  | nil => simp [gvSet, msKeys]
  | cons p m ih =>
    by_cases h : p.1 == k
    · have h' : p.1 = k := by simpa using h
      simp [gvSet, h, msKeys, h']
    · have h' : ¬ k = p.1 := by
        intro hk
        exact absurd (by simp [hk]) h
      have hg : gvSet (p :: m) k v = p :: gvSet m k v := by
        simp [gvSet, h]
      rw [hg]
      simp only [msKeys, List.map_cons] at ih ⊢
      rw [ih]
      by_cases hm : k ∈ List.map Prod.fst m
      · rw [if_pos hm, if_pos (List.mem_cons_of_mem _ hm)]
      · rw [if_neg hm, if_neg (by simp [h', hm]), List.cons_append]

theorem mem_msKeys_gvSet (m : MetricState) (k x : List String) (v : Rat) :
    x ∈ msKeys (gvSet m k v) ↔ x ∈ msKeys m ∨ x = k := by
  rw [msKeys_gvSet]
  by_cases h : k ∈ msKeys m
  · simp only [if_pos h]
    constructor
    · exact fun hx => Or.inl hx
    · rintro (hx | rfl)
      · exact hx
      · exact h
  · simp [if_neg h]

theorem nodup_msKeys_gvSet (m : MetricState) (k : List String) (v : Rat)
    (h : (msKeys m).Nodup) : (msKeys (gvSet m k v)).Nodup := by
  rw [msKeys_gvSet]
  by_cases hk : k ∈ msKeys m
  · simpa [if_pos hk] using h
  · rw [if_neg hk]
    simpa [List.nodup_append] using ⟨h, fun hx => hk hx⟩

theorem length_gvSet (m : MetricState) (k : List String) (v : Rat) :
    (gvSet m k v).length = if k ∈ msKeys m then m.length else m.length + 1 := by
  induction m with
  | nil => simp [gvSet, msKeys]
  | cons p m ih =>
    by_cases h : p.1 == k
    · have h' : p.1 = k := by simpa using h
      simp [gvSet, h, msKeys, h']
    · have h' : ¬ k = p.1 := by
        intro hk
        exact absurd (by simp [hk]) h
      have hg : gvSet (p :: m) k v = p :: gvSet m k v := by
        simp [gvSet, h]
      rw [hg]
      simp only [msKeys, List.map_cons] at ih ⊢
      rw [List.length_cons, ih]
      by_cases hm : k ∈ List.map Prod.fst m
      · rw [if_pos hm, if_pos (List.mem_cons_of_mem _ hm)]
        simp
      · rw [if_neg hm, if_neg (by simp [h', hm])]
        simp

theorem msLookup_gvSet_self (m : MetricState) (k : List String) (v : Rat) :
    msLookup (gvSet m k v) k = some v := by
  induction m with
  | nil => simp [gvSet, msLookup, List.find?]
  | cons p m ih =>
    by_cases h : p.1 == k
    · simp [gvSet, h, msLookup, List.find?]
    · simpa [gvSet, h, msLookup, List.find?] using ih

theorem msLookup_gvSet_ne (m : MetricState) (k k' : List String) (v : Rat) (h : k' ≠ k) :
    msLookup (gvSet m k v) k' = msLookup m k' := by
  induction m with
  | nil =>
    simp [gvSet, msLookup, List.find?, (by simpa using Ne.symm h : ¬ (k == k') = true)]
  | cons p m ih =>
    by_cases hp : p.1 == k
    · have hp' : p.1 = k := by simpa using hp
      simp [gvSet, hp, msLookup, List.find?, hp',
        (by simpa using Ne.symm h : ¬ (k == k') = true)]
    · by_cases hq : p.1 == k'
      · simp [gvSet, hp, msLookup, List.find?, hq]
      · simpa [gvSet, hp, msLookup, List.find?, hq] using ih

theorem mem_gvSet (m : MetricState) (k : List String) (v : Rat) (p : List String × Rat) :
    p ∈ gvSet m k v → p = (k, v) ∨ p ∈ m := by
  induction m with
  | nil =>
    intro h
    simpa [gvSet] using h
  | cons q m ih =>
    intro h
    by_cases hq : q.1 == k
    · simp only [gvSet, if_pos hq] at h
      rcases List.mem_cons.mp h with h1 | h1
      · exact Or.inl h1
      · exact Or.inr (List.mem_cons_of_mem _ h1)
    · simp only [gvSet, if_neg hq] at h
      rcases List.mem_cons.mp h with h1 | h1
      · exact Or.inr (by simp [h1])
      · rcases ih h1 with h2 | h2
        · exact Or.inl h2
        · exact Or.inr (List.mem_cons_of_mem _ h2)

theorem mem_msKeys_foldl {α : Type} (key : α → List String) (val : α → Rat)
    (l : List α) (m : MetricState) (x : List String) :
    x ∈ msKeys (l.foldl (fun acc e => gvSet acc (key e) (val e)) m)
      ↔ x ∈ msKeys m ∨ x ∈ l.map key := by
  induction l generalizing m with
  | nil => simp
  | cons e l ih =>
    simp only [List.foldl_cons, ih, mem_msKeys_gvSet, List.map_cons, List.mem_cons]
    tauto

theorem nodup_msKeys_foldl {α : Type} (key : α → List String) (val : α → Rat)
    (l : List α) (m : MetricState) (h : (msKeys m).Nodup) :
    (msKeys (l.foldl (fun acc e => gvSet acc (key e) (val e)) m)).Nodup := by
  induction l generalizing m with
  | nil => simpa
  | cons e l ih => exact ih _ (nodup_msKeys_gvSet _ _ _ h)

theorem length_foldl_gvSet {α : Type} (key : α → List String) (val : α → Rat) :
    ∀ (l : List α) (m : MetricState), (l.map key).Nodup →
      (∀ e ∈ l, key e ∉ msKeys m) →
      (l.foldl (fun acc e => gvSet acc (key e) (val e)) m).length = m.length + l.length := by
  intro l
  induction l with
  | nil =>
    intro m _ _
    simp
  | cons e l ih =>
    intro m hnd hdisj
    have hnd2 := hnd
    simp only [List.map_cons, List.nodup_cons] at hnd2
    obtain ⟨hne, hnd'⟩ := hnd2
    have hke : key e ∉ msKeys m := hdisj e (by simp)
    have hdisj' : ∀ e' ∈ l, key e' ∉ msKeys (gvSet m (key e) (val e)) := by
      intro e' he' hmem
      rw [msKeys_gvSet, if_neg hke] at hmem
      rcases List.mem_append.mp hmem with hmem | hmem
      · exact hdisj e' (List.mem_cons_of_mem _ he') hmem
      · have hkk : key e' = key e := by simpa using hmem
        exact hne (by rw [← hkk]; exact List.mem_map_of_mem key he')
    simp only [List.foldl_cons]
    rw [ih _ hnd' hdisj', length_gvSet, if_neg hke]
    simp only [List.length_cons]
    omega

theorem msLookup_foldl_not_mem {α : Type} (key : α → List String) (val : α → Rat)
    (l : List α) :
    ∀ (m : MetricState) (k : List String), k ∉ l.map key →
      msLookup (l.foldl (fun acc e => gvSet acc (key e) (val e)) m) k = msLookup m k := by
  induction l with
  | nil =>
    intro m k _
    rfl
  | cons e l ih =>
    intro m k hk
    have h1 : k ∉ l.map key := fun h => hk (by simp [h])
    have h2 : k ≠ key e := fun h => hk (by simp [h])
    simp only [List.foldl_cons]
    rw [ih _ _ h1, msLookup_gvSet_ne _ _ _ _ h2]

theorem msLookup_foldl_mem {α : Type} (key : α → List String) (val : α → Rat)
    (l : List α) (e : α) :
    ∀ m : MetricState, e ∈ l → (l.map key).Nodup →
      msLookup (l.foldl (fun acc x => gvSet acc (key x) (val x)) m) (key e) = some (val e) := by
  induction l with
  | nil =>
    intro m he _
    exact absurd he (List.not_mem_nil e)
  | cons x l ih =>
    intro m he hnd
    have hnd2 := hnd
    simp only [List.map_cons, List.nodup_cons] at hnd2
    obtain ⟨hne, hnd'⟩ := hnd2
    simp only [List.foldl_cons]
    rcases List.mem_cons.mp he with rfl | he'
    · rw [msLookup_foldl_not_mem key val l _ _ hne, msLookup_gvSet_self]
    · exact ih _ he' hnd'

theorem mem_foldl_gvSet {α : Type} (key : α → List String) (val : α → Rat)
    (l : List α) :
    ∀ (m : MetricState) (p : List String × Rat),
      p ∈ l.foldl (fun acc x => gvSet acc (key x) (val x)) m →
      p ∈ m ∨ ∃ e ∈ l, p = (key e, val e) := by
  induction l with
  | nil =>
    intro m p hp
    exact Or.inl hp
  | cons x l ih =>
    intro m p hp
    simp only [List.foldl_cons] at hp
    rcases ih _ p hp with h | ⟨e, he, hpe⟩
    · rcases mem_gvSet _ _ _ _ h with h1 | h1
      · exact Or.inr ⟨x, by simp, h1⟩
      · exact Or.inl h1
    · exact Or.inr ⟨e, List.mem_cons_of_mem _ he, hpe⟩

theorem msLookup_eq_some_mem (m : MetricState) (k : List String) (v : Rat)
    (h : msLookup m k = some v) : (k, v) ∈ m := by
  unfold msLookup at h
  rcases hf : m.find? (fun p => p.1 == k) with _ | p
  · rw [hf] at h
    simp at h
  · rw [hf] at h
    have hp : p.1 = k := by simpa using List.find?_some hf
    have hm := List.mem_of_find?_eq_some hf
    have hv : p.2 = v := by simpa using h
    have hkv : (k, v) = p := by
      rw [Prod.ext_iff]
      exact ⟨hp.symm, hv.symm⟩
    rw [hkv]
    exact hm

theorem msLookup_isSome_of_mem_keys (m : MetricState) (k : List String)
    (h : k ∈ msKeys m) : (msLookup m k).isSome = true := by
  unfold msKeys at h
  obtain ⟨p, hp, hk⟩ := List.mem_map.mp h
  unfold msLookup
  have hsome : (m.find? (fun p => p.1 == k)).isSome = true := by
    rw [List.find?_isSome]
    exact ⟨p, hp, by simp [hk]⟩
  rcases ho : m.find? (fun p => p.1 == k) with _ | q
  · rw [ho] at hsome
    simp at hsome
  · simp [ho]

/-! ## The Metric Registry Builder (`newMasterStateCollector`) -/

/-- `labels := []string{"slave", "hostname"}` of `newMasterStateCollector`. -/
def labels : List String := ["slave", "hostname"]

/-- `framework_labels := []string{"framework"}` of `newMasterStateCollector`. -/
def framework_labels : List String := ["framework"]

/-- One slave gauge extraction function of `newMasterStateCollector`:
`Reset()`, then for every slave
`WithLabelValues(s.PID, s.Hostname).Set(f s)`. -/
def extractSlaveGauge (f : slave → Rat) (st : state) : MetricState :=
  st.slaves.foldl (fun m s => gvSet m [s.pid, s.hostname] (f s)) []

/-- One framework gauge extraction function of `newMasterStateCollector`:
`Reset()`, then for every framework `WithLabelValues(f.Name).Set(g f)`. -/
def extractFrameworkGauge (g : framework → Rat) (st : state) : MetricState :=
  st.frameworks.foldl (fun m fw => gvSet m [fw.name] (g fw)) []

/-- The `slaveAttributesExport` label map built per slave by the dynamic
attribute metric: `{"slave": s.PID}`, then every normalised allow-listed
label defaulted to `""`, then each of the slave's attributes whose
normalised key is allow-listed and whose value is a string. -/
def slaveAttributeLabelMap (normalised : List String) (s : slave) :
    List (String × String) :=
  s.attributes.foldl
    (fun m kv =>
      let normalisedLabel := normaliseLabel kv.1
      if stringInSlice normalisedLabel normalised then
        match attributeString kv.2 with
        | some attrString => mapSet m normalisedLabel attrString
        | none => m
      else m)
    (normalised.foldl (fun m l => mapSet m l "") [("slave", s.pid)])

/-- The label-value tuple the dynamic attribute metric emits for one
slave, ordered by `slaveAttributesLabelsExport = labels ++ normalised`. -/
def slaveAttrRecord (al : List String) (s : slave) : List String :=
  getLabelValuesFromMap (slaveAttributeLabelMap (normaliseLabelList al) s)
    (labels ++ normaliseLabelList al)

/-- The dynamic attribute metric's extraction function: NO reset — the
settableCounterVec (modelled from the spec) keeps prior rows — then
`Set(1, ...)` per slave. -/
def runSlaveAttributes (al : List String) (st : state) (prev : MetricState) : MetricState :=
  st.slaves.foldl (fun m s => gvSet m (slaveAttrRecord al s) 1) prev

/-- The metric descriptors built by `newMasterStateCollector`, named
after their `Namespace_Subsystem_Name`. -/
inductive metricId
  | slave_cpus
  | slave_cpus_used
  | slave_cpus_unreserved
  | slave_mem_bytes
  | slave_mem_used_bytes
  | slave_mem_unreserved_bytes
  | slave_disk_bytes
  | slave_disk_used_bytes
  | slave_disk_unreserved_bytes
  | slave_ports
  | slave_ports_used
  | slave_ports_unreserved
  | framework_active
  | framework_cpu_used
  | framework_disk_used
  | framework_mem_used
  | framework_cpu_offered
  | framework_mem_offered
  | framework_disk_offered
  | slave_attributes
deriving DecidableEq

/-- Each descriptor's extraction function, as written in the body of
`newMasterStateCollector` (memory and disk ×1024 KiB→bytes, cpus as-is,
port-pool sizes via `ranges.size`, framework pools as-is, `active` as
0/1, and the additive attribute metric). -/
def runMetric (al : List String) : metricId → state → MetricState → MetricState
  | .slave_cpus, st, _prev => extractSlaveGauge (fun s => s.total.cpus) st
  | .slave_cpus_used, st, _prev => extractSlaveGauge (fun s => s.used.cpus) st
  | .slave_cpus_unreserved, st, _prev => extractSlaveGauge (fun s => s.unreserved.cpus) st
  | .slave_mem_bytes, st, _prev => extractSlaveGauge (fun s => s.total.mem * 1024) st
  | .slave_mem_used_bytes, st, _prev => extractSlaveGauge (fun s => s.used.mem * 1024) st
  | .slave_mem_unreserved_bytes, st, _prev =>
      extractSlaveGauge (fun s => s.unreserved.mem * 1024) st
  | .slave_disk_bytes, st, _prev => extractSlaveGauge (fun s => s.total.disk * 1024) st
  | .slave_disk_used_bytes, st, _prev => extractSlaveGauge (fun s => s.used.disk * 1024) st
  | .slave_disk_unreserved_bytes, st, _prev =>
      extractSlaveGauge (fun s => s.unreserved.disk * 1024) st
  | .slave_ports, st, _prev =>
      extractSlaveGauge (fun s => (ranges.size s.total.ports : Rat)) st
  | .slave_ports_used, st, _prev =>
      extractSlaveGauge (fun s => (ranges.size s.used.ports : Rat)) st
  | .slave_ports_unreserved, st, _prev =>
      extractSlaveGauge (fun s => (ranges.size s.unreserved.ports : Rat)) st
  | .framework_active, st, _prev =>
      extractFrameworkGauge (fun f => if f.active then 1 else 0) st
  | .framework_cpu_used, st, _prev => extractFrameworkGauge (fun f => f.used.cpus) st
  | .framework_disk_used, st, _prev => extractFrameworkGauge (fun f => f.used.disk) st
  | .framework_mem_used, st, _prev => extractFrameworkGauge (fun f => f.used.mem) st
  | .framework_cpu_offered, st, _prev => extractFrameworkGauge (fun f => f.offered.cpus) st
  | .framework_mem_offered, st, _prev => extractFrameworkGauge (fun f => f.offered.mem) st
  | .framework_disk_offered, st, _prev => extractFrameworkGauge (fun f => f.offered.disk) st
  | .slave_attributes, st, prev => runSlaveAttributes al st prev

/-- The nineteen fixed metrics always present in the `metrics` map of
`newMasterStateCollector`. -/
def fixedMetrics : List metricId :=
  [.slave_cpus, .slave_cpus_used, .slave_cpus_unreserved,
   .slave_mem_bytes, .slave_mem_used_bytes, .slave_mem_unreserved_bytes,
   .slave_disk_bytes, .slave_disk_used_bytes, .slave_disk_unreserved_bytes,
   .slave_ports, .slave_ports_used, .slave_ports_unreserved,
   .framework_active, .framework_cpu_used, .framework_disk_used, .framework_mem_used,
   .framework_cpu_offered, .framework_mem_offered, .framework_disk_offered]

/-- The registry built by `newMasterStateCollector(httpClient,
slaveAttributeLabels)`: the fixed metrics, plus the dynamic attribute
metric exactly when `len(slaveAttributeLabels) > 0`. -/
def registry (al : List String) : List metricId :=
  fixedMetrics ++ (if al.length > 0 then [metricId.slave_attributes] else [])

/-- The process-lifetime mutable state: each descriptor's current sample
set. -/
def CollectorState : Type := metricId → MetricState

/-- Modelled from the spec: `fetchAndDecode` (not under src/) either
decodes the snapshot into `s` or leaves the zero-value `state` on
failure — the result is ignored by `masterCollector.Collect`, which
proceeds either way. -/
def fetchResultState : Option state → state
  | some st => st
  | none => emptyState

/-- `masterCollector.Collect`: fetch (or keep `var s state` on
failure), then for every registered metric run its extraction function
against the snapshot; unregistered descriptors keep their state. -/
def collect (al : List String) (fetched : Option state) (cs : CollectorState) :
    CollectorState :=
  fun id => if id ∈ registry al then runMetric al id (fetchResultState fetched) (cs id)
    else cs id

/-- The samples forwarded to the output channel after a cycle: every
registered descriptor's current sample set. -/
def emitted (al : List String) (cs : CollectorState) : List (metricId × MetricState) :=
  (registry al).map (fun id => (id, cs id))

/-- The label-value tuples of the slave gauges: one per slave, in order. -/
def slaveKeys (st : state) : List (List String) :=
  st.slaves.map (fun s => [s.pid, s.hostname])

/-- The label-value tuples of the framework gauges: one per framework. -/
def frameworkKeys (st : state) : List (List String) :=
  st.frameworks.map (fun f => [f.name])

/-- The label tuples each metric derives from a snapshot: slave identity
tuples for the slave gauges, framework name tuples for the framework
gauges, and the per-slave attribute records for the dynamic metric. -/
def metricEntityKeys (al : List String) : metricId → state → List (List String)
  | .slave_cpus, st => slaveKeys st
  | .slave_cpus_used, st => slaveKeys st
  | .slave_cpus_unreserved, st => slaveKeys st
  | .slave_mem_bytes, st => slaveKeys st
  | .slave_mem_used_bytes, st => slaveKeys st
  | .slave_mem_unreserved_bytes, st => slaveKeys st
  | .slave_disk_bytes, st => slaveKeys st
  | .slave_disk_used_bytes, st => slaveKeys st
  | .slave_disk_unreserved_bytes, st => slaveKeys st
  | .slave_ports, st => slaveKeys st
  | .slave_ports_used, st => slaveKeys st
  | .slave_ports_unreserved, st => slaveKeys st
  | .framework_active, st => frameworkKeys st
  | .framework_cpu_used, st => frameworkKeys st
  | .framework_disk_used, st => frameworkKeys st
  | .framework_mem_used, st => frameworkKeys st
  | .framework_cpu_offered, st => frameworkKeys st
  | .framework_mem_offered, st => frameworkKeys st
  | .framework_disk_offered, st => frameworkKeys st
  | .slave_attributes, st => st.slaves.map (slaveAttrRecord al)

theorem msKeys_extractSlaveGauge (f : slave → Rat) (st : state) (x : List String) :
    x ∈ msKeys (extractSlaveGauge f st) ↔ x ∈ slaveKeys st := by
  have h := mem_msKeys_foldl (fun s : slave => [s.pid, s.hostname]) f st.slaves [] x
  simpa [extractSlaveGauge, slaveKeys, msKeys] using h

theorem msKeys_extractFrameworkGauge (g : framework → Rat) (st : state) (x : List String) :
    x ∈ msKeys (extractFrameworkGauge g st) ↔ x ∈ frameworkKeys st := by
  have h := mem_msKeys_foldl (fun fw : framework => [fw.name]) g st.frameworks [] x
  simpa [extractFrameworkGauge, frameworkKeys, msKeys] using h

theorem msKeys_runSlaveAttributes (al : List String) (st : state) (prev : MetricState)
    (x : List String) :
    x ∈ msKeys (runSlaveAttributes al st prev)
      ↔ x ∈ msKeys prev ∨ x ∈ st.slaves.map (slaveAttrRecord al) := by
  have h := mem_msKeys_foldl (slaveAttrRecord al) (fun _ => (1 : Rat)) st.slaves prev x
  simpa [runSlaveAttributes] using h

/-- The label tuples a metric's extraction function leaves behind: the
entity tuples of the snapshot, plus — only for the additive attribute
metric — whatever tuples were already present. -/
theorem msKeys_runMetric (al : List String) (id : metricId) (st : state)
    (prev : MetricState) (x : List String) :
    x ∈ msKeys (runMetric al id st prev)
      ↔ x ∈ metricEntityKeys al id st
        ∨ (id = metricId.slave_attributes ∧ x ∈ msKeys prev) := by
  cases id
  case slave_attributes =>
    simp only [runMetric, metricEntityKeys, msKeys_runSlaveAttributes,
      eq_self_iff_true, true_and]
    exact Or.comm
  all_goals
    simp [runMetric, metricEntityKeys, msKeys_extractSlaveGauge,
      msKeys_extractFrameworkGauge]

theorem extractSlaveGauge_spec (f : slave → Rat) (st : state) :
    (∀ k, k ∈ msKeys (extractSlaveGauge f st) ↔ k ∈ slaveKeys st)
    ∧ (msKeys (extractSlaveGauge f st)).Nodup
    ∧ ((slaveKeys st).Nodup → (extractSlaveGauge f st).length = (slaveKeys st).length)
    ∧ (slaveKeys st = [] → extractSlaveGauge f st = []) := by
  refine ⟨msKeys_extractSlaveGauge f st, ?_, ?_, ?_⟩
  · have h := nodup_msKeys_foldl (fun s : slave => [s.pid, s.hostname]) f st.slaves []
      (by simp [msKeys])
    simpa [extractSlaveGauge] using h
  · intro hnd
    have h := length_foldl_gvSet (fun s : slave => [s.pid, s.hostname]) f st.slaves []
      (by simpa [slaveKeys] using hnd) (by simp [msKeys])
    simpa [extractSlaveGauge, slaveKeys] using h
  · intro hempty
    have hs : st.slaves = [] := by
      simpa [slaveKeys] using hempty
    simp [extractSlaveGauge, hs]

theorem extractFrameworkGauge_spec (g : framework → Rat) (st : state) :
    (∀ k, k ∈ msKeys (extractFrameworkGauge g st) ↔ k ∈ frameworkKeys st)
    ∧ (msKeys (extractFrameworkGauge g st)).Nodup
    ∧ ((frameworkKeys st).Nodup →
        (extractFrameworkGauge g st).length = (frameworkKeys st).length)
    ∧ (frameworkKeys st = [] → extractFrameworkGauge g st = []) := by
  refine ⟨msKeys_extractFrameworkGauge g st, ?_, ?_, ?_⟩
  · have h := nodup_msKeys_foldl (fun fw : framework => [fw.name]) g st.frameworks []
      (by simp [msKeys])
    simpa [extractFrameworkGauge] using h
  · intro hnd
    have h := length_foldl_gvSet (fun fw : framework => [fw.name]) g st.frameworks []
      (by simpa [frameworkKeys] using hnd) (by simp [msKeys])
    simpa [extractFrameworkGauge, frameworkKeys] using h
  · intro hempty
    have hf : st.frameworks = [] := by
      simpa [frameworkKeys] using hempty
    simp [extractFrameworkGauge, hf]

theorem msLookup_extractSlaveGauge (f : slave → Rat) (st : state) (s : slave)
    (hs : s ∈ st.slaves) (hnd : (slaveKeys st).Nodup) :
    msLookup (extractSlaveGauge f st) [s.pid, s.hostname] = some (f s) := by
  have h := msLookup_foldl_mem (fun s : slave => [s.pid, s.hostname]) f st.slaves s []
    hs (by simpa [slaveKeys] using hnd)
  simpa [extractSlaveGauge] using h

theorem msLookup_extractFrameworkGauge (g : framework → Rat) (st : state) (fw : framework)
    (hf : fw ∈ st.frameworks) (hnd : (frameworkKeys st).Nodup) :
    msLookup (extractFrameworkGauge g st) [fw.name] = some (g fw) := by
  have h := msLookup_foldl_mem (fun fw : framework => [fw.name]) g st.frameworks fw []
    hf (by simpa [frameworkKeys] using hnd)
  simpa [extractFrameworkGauge] using h

theorem mapGet_foldl_not_mem (ls : List String) :
    ∀ (m : List (String × String)) (l : String), l ∉ ls →
      mapGet (ls.foldl (fun m x => mapSet m x "") m) l = mapGet m l := by
  induction ls with
  | nil =>
    intro m l _
    rfl
  | cons x ls ih =>
    intro m l hl
    simp only [List.foldl_cons]
    have h1 : l ∉ ls := fun h => hl (by simp [h])
    have h2 : l ≠ x := fun h => hl (by simp [h])
    rw [ih _ _ h1, mapGet_mapSet_ne _ _ _ _ h2]

theorem mapGet_foldl_default (ls : List String) :
    ∀ (m : List (String × String)) (l : String), l ∈ ls →
      mapGet (ls.foldl (fun m x => mapSet m x "") m) l = "" := by
  induction ls with
  | nil =>
    intro m l hl
    simp at hl
  | cons x ls ih =>
    intro m l hl
    simp only [List.foldl_cons]
    by_cases hmem : l ∈ ls
    · exact ih _ l hmem
    · have hlx : l = x := by
        rcases List.mem_cons.mp hl with h | h
        · exact h
        · exact absurd h hmem
      subst hlx
      rw [mapGet_foldl_not_mem ls _ l hmem, mapGet_mapSet_self]

theorem mapGet_attrFold_preserve (normalised : List String)
    (attrs : List (String × attrValue)) :
    ∀ (m : List (String × String)) (l : String),
      (∀ kv ∈ attrs, normaliseLabel kv.1 = l → attributeString kv.2 = none) →
      mapGet (attrs.foldl
        (fun m kv =>
          let normalisedLabel := normaliseLabel kv.1
          if stringInSlice normalisedLabel normalised then
            match attributeString kv.2 with
            | some attrString => mapSet m normalisedLabel attrString
            | none => m
          else m) m) l = mapGet m l := by
  induction attrs with
  | nil =>
    intro m l _
    rfl
  | cons kv attrs ih =>
    intro m l hno
    simp only [List.foldl_cons]
    rw [ih _ _ (fun kv' h => hno kv' (List.mem_cons_of_mem _ h))]
    by_cases hsl : stringInSlice (normaliseLabel kv.1) normalised = true
    · rcases hat : attributeString kv.2 with _ | a
      · simp only [if_pos hsl, hat]
      · have hne : l ≠ normaliseLabel kv.1 := by
          intro heq
          have h0 := hno kv (by simp) heq.symm
          rw [hat] at h0
          exact Option.noConfusion h0
        simp only [if_pos hsl, hat]
        exact mapGet_mapSet_ne _ _ _ _ hne
    · simp only [if_neg hsl]

/-! ## Concrete snapshots used by witnesses and counterexamples -/

/-- A sample slave (the spec's end-to-end scenario, `total.mem == 2`). -/
def slaveM : slave :=
  { pid := "s1", hostname := "h1",
    used := { cpus := 1, disk := 3, mem := 4, ports := [] },
    unreserved := { cpus := 1, disk := 3, mem := 4, ports := [] },
    total := { cpus := 4, disk := 5, mem := 2, ports := [(31000, 32000)] },
    attributes := [("rack", attrValue.str "r1")] }

/-- A sample framework. -/
def frameworkW : framework :=
  { active := true, name := "fw",
    used := { cpus := 2, disk := 6, mem := 7 },
    offered := { cpus := 1, disk := 2, mem := 3 } }

/-- A sample snapshot with one slave and one framework. -/
def stateW : state := { slaves := [slaveM], frameworks := [frameworkW] }

/-- A second slave, present only in the second sample snapshot. -/
def slaveB : slave :=
  { pid := "b", hostname := "hb",
    used := { cpus := 0, disk := 0, mem := 0, ports := [] },
    unreserved := { cpus := 0, disk := 0, mem := 0, ports := [] },
    total := { cpus := 1, disk := 1, mem := 1, ports := [] },
    attributes := [] }

/-- A snapshot containing only `slaveB` (so `slaveM` has retired). -/
def stateB : state := { slaves := [slaveB], frameworks := [] }

/-- Two frameworks sharing the name `"f"` with different usage. -/
def dupFrameworkState : state :=
  { slaves := [],
    frameworks :=
      [{ active := true, name := "f",
         used := { cpus := 1, disk := 0, mem := 0 },
         offered := { cpus := 0, disk := 0, mem := 0 } },
       { active := true, name := "f",
         used := { cpus := 2, disk := 0, mem := 0 },
         offered := { cpus := 0, disk := 0, mem := 0 } }] }

/-! ## Claims about the registry and the collection cycle -/

/-- C9: the registry contains the dynamic attribute metric iff the
allow-list is non-empty; every fixed metric is always registered (no
partial registration), an empty allow-list yields exactly the nineteen
fixed metrics, and a non-empty one exactly one more. -/
theorem registry_attribute_metric_iff :
    (∀ al : List String, metricId.slave_attributes ∈ registry al ↔ al ≠ [])
    ∧ (∀ (al : List String) (id : metricId), id ∈ fixedMetrics → id ∈ registry al)
    ∧ registry [] = fixedMetrics
    ∧ fixedMetrics.length = 19
    ∧ (∀ al : List String, al ≠ [] → (registry al).length = 20) := by
  refine ⟨?_, ?_, by simp [registry], by decide, ?_⟩
  · intro al
    unfold registry
    rcases al with _ | ⟨a, al⟩
    · simp [(by decide : metricId.slave_attributes ∉ fixedMetrics)]
    · simp
  · intro al id hid
    unfold registry
    exact List.mem_append_left _ hid
  · intro al hne
    rcases al with _ | ⟨a, al⟩
    · exact absurd rfl hne
    · have hc : (a :: al).length > 0 := Nat.succ_pos _
      rw [registry, if_pos hc]
      decide

theorem registry_attribute_metric_iff_witness :
    metricId.slave_attributes ∈ registry ["rack"]
    ∧ (registry ["rack"]).length = 20
    ∧ metricId.slave_cpus ∈ registry ["rack"] :=
  ⟨(registry_attribute_metric_iff.1 ["rack"]).mpr (by simp),
    registry_attribute_metric_iff.2.2.2.2 ["rack"] (by simp),
    registry_attribute_metric_iff.2.1 ["rack"] metricId.slave_cpus (by decide)⟩

/-- C5: when the fetch fails the cycle still runs: `Collect` ignores the
fetch result, so every registered metric's extraction function runs over
the zero-value (empty) snapshot, and every registered descriptor's
sample set is still emitted. -/
theorem collect_on_fetch_failure :
    ∀ (al : List String) (cs : CollectorState),
      (∀ id ∈ registry al, collect al none cs id = runMetric al id emptyState (cs id))
      ∧ emitted al (collect al none cs)
          = (registry al).map (fun id => (id, runMetric al id emptyState (cs id))) := by
  intro al cs
  have hrun : ∀ id ∈ registry al,
      collect al none cs id = runMetric al id emptyState (cs id) := by
    intro id hid
    simp only [collect, if_pos hid, fetchResultState]
  refine ⟨hrun, ?_⟩
  unfold emitted
  refine List.map_congr_left ?_
  intro id hid
  rw [hrun id hid]

theorem collect_on_fetch_failure_witness :
    collect ["rack"] none (fun _ => []) metricId.slave_cpus
      = runMetric ["rack"] metricId.slave_cpus emptyState [] :=
  (collect_on_fetch_failure ["rack"] (fun _ => [])).1 metricId.slave_cpus (by decide)

/-- C2: after a cycle against `S1` and one against `S2`, every sample of
a gauge-style (fixed) metric is keyed by an entity of `S2` — entities of
`S1` absent from `S2` have disappeared (each gauge resets before
repopulating) — while the additive attribute metric keeps every
previously recorded row. -/
theorem gauge_reset_no_stale_entities :
    (∀ (al : List String) (s1 s2 : state) (cs0 : CollectorState) (id : metricId)
        (k : List String), id ∈ fixedMetrics →
        k ∈ msKeys (collect al (some s2) (collect al (some s1) cs0) id) →
        k ∈ metricEntityKeys al id s2)
    ∧ (∀ (al : List String) (s2 : state) (cs : CollectorState) (k : List String),
        k ∈ msKeys (cs metricId.slave_attributes) →
        k ∈ msKeys (collect al (some s2) cs metricId.slave_attributes)) := by
  constructor
  · intro al s1 s2 cs0 id k hid hk
    have hreg : id ∈ registry al := by
      unfold registry
      exact List.mem_append_left _ hid
    have hcol : collect al (some s2) (collect al (some s1) cs0) id
        = runMetric al id s2 (collect al (some s1) cs0 id) := by
      simp only [collect, if_pos hreg, fetchResultState]
    rw [hcol] at hk
    rcases (msKeys_runMetric al id s2 _ k).mp hk with h | ⟨heq, _⟩
    · exact h
    · exact absurd (heq ▸ hid) (by decide)
  · intro al s2 cs k hk
    by_cases hreg : metricId.slave_attributes ∈ registry al
    · have hcol : collect al (some s2) cs metricId.slave_attributes
          = runSlaveAttributes al s2 (cs metricId.slave_attributes) := by
        simp only [collect, if_pos hreg, fetchResultState, runMetric]
      rw [hcol, msKeys_runSlaveAttributes]
      exact Or.inl hk
    · have hcol : collect al (some s2) cs metricId.slave_attributes
          = cs metricId.slave_attributes := by
        simp only [collect, if_neg hreg]
      rw [hcol]
      exact hk

theorem gauge_reset_no_stale_entities_witness :
    ["b", "hb"] ∈ metricEntityKeys ["rack"] metricId.slave_cpus stateB
    ∧ ["r", ""] ∈ msKeys (collect ["rack"] (some stateB)
        (fun _ => [(["r", ""], 1)]) metricId.slave_attributes) :=
  ⟨gauge_reset_no_stale_entities.1 ["rack"] stateW stateB (fun _ => [])
      metricId.slave_cpus ["b", "hb"] (by decide) (by decide),
    gauge_reset_no_stale_entities.2 ["rack"] stateB
      (fun _ => [(["r", ""], 1)]) ["r", ""] (by decide)⟩

/-- C3 counterexample: a snapshot with two frameworks both named `"f"`
yields ONE sample on a framework metric, not one per framework — label
tuples collide, so the claimed one-sample-per-entity count fails. -/
theorem duplicate_framework_names_collapse :
    (collect [] (some dupFrameworkState) (fun _ => []) metricId.framework_cpu_used).length = 1
    ∧ dupFrameworkState.frameworks.length = 2 := by
  exact ⟨by decide, by decide⟩

/-- C3 (amended): a cycle gives a fixed-shape metric exactly one sample
per DISTINCT entity label tuple of the snapshot: sample keys are exactly
the entity tuples, without duplicates; when the entity tuples are
pairwise distinct this is exactly one sample per entity, and an empty
entity list leaves zero samples. -/
theorem fixed_metric_sample_counts :
    ∀ (al : List String) (st : state) (prev : MetricState) (id : metricId),
      id ∈ fixedMetrics →
      ((∀ k, k ∈ msKeys (runMetric al id st prev) ↔ k ∈ metricEntityKeys al id st)
        ∧ (msKeys (runMetric al id st prev)).Nodup
        ∧ ((metricEntityKeys al id st).Nodup →
            (runMetric al id st prev).length = (metricEntityKeys al id st).length)
        ∧ (metricEntityKeys al id st = [] → runMetric al id st prev = [])) := by
  intro al st prev id hid
  cases id
  case slave_attributes => exact absurd hid (by decide)
  all_goals first
    | exact extractSlaveGauge_spec _ st
    | exact extractFrameworkGauge_spec _ st

theorem fixed_metric_sample_counts_witness :
    (runMetric ["rack"] metricId.slave_cpus stateW []).length
      = (metricEntityKeys ["rack"] metricId.slave_cpus stateW).length :=
  (fixed_metric_sample_counts ["rack"] stateW [] metricId.slave_cpus
    (by decide)).2.2.1 (by decide)

/-- C4: node memory and disk gauges carry the snapshot value ×1024
(KiB→bytes), node cpu gauges carry the value as-is, and the framework
used/offered cpu/memory/disk gauges carry the snapshot values with no
unit conversion. -/
theorem resource_unit_conversion :
    ∀ (al : List String) (st : state) (prev : MetricState),
      (∀ s ∈ st.slaves, (slaveKeys st).Nodup →
        msLookup (runMetric al metricId.slave_cpus st prev) [s.pid, s.hostname]
            = some s.total.cpus
        ∧ msLookup (runMetric al metricId.slave_cpus_used st prev) [s.pid, s.hostname]
            = some s.used.cpus
        ∧ msLookup (runMetric al metricId.slave_cpus_unreserved st prev) [s.pid, s.hostname]
            = some s.unreserved.cpus
        ∧ msLookup (runMetric al metricId.slave_mem_bytes st prev) [s.pid, s.hostname]
            = some (s.total.mem * 1024)
        ∧ msLookup (runMetric al metricId.slave_mem_used_bytes st prev) [s.pid, s.hostname]
            = some (s.used.mem * 1024)
        ∧ msLookup (runMetric al metricId.slave_mem_unreserved_bytes st prev)
              [s.pid, s.hostname]
            = some (s.unreserved.mem * 1024)
        ∧ msLookup (runMetric al metricId.slave_disk_bytes st prev) [s.pid, s.hostname]
            = some (s.total.disk * 1024)
        ∧ msLookup (runMetric al metricId.slave_disk_used_bytes st prev) [s.pid, s.hostname]
            = some (s.used.disk * 1024)
        ∧ msLookup (runMetric al metricId.slave_disk_unreserved_bytes st prev)
              [s.pid, s.hostname]
            = some (s.unreserved.disk * 1024))
      ∧ (∀ fw ∈ st.frameworks, (frameworkKeys st).Nodup →
        msLookup (runMetric al metricId.framework_cpu_used st prev) [fw.name]
            = some fw.used.cpus
        ∧ msLookup (runMetric al metricId.framework_mem_used st prev) [fw.name]
            = some fw.used.mem
        ∧ msLookup (runMetric al metricId.framework_disk_used st prev) [fw.name]
            = some fw.used.disk
        ∧ msLookup (runMetric al metricId.framework_cpu_offered st prev) [fw.name]
            = some fw.offered.cpus
        ∧ msLookup (runMetric al metricId.framework_mem_offered st prev) [fw.name]
            = some fw.offered.mem
        ∧ msLookup (runMetric al metricId.framework_disk_offered st prev) [fw.name]
            = some fw.offered.disk) := by
  intro al st prev
  constructor
  · intro s hs hnd
    exact ⟨msLookup_extractSlaveGauge _ st s hs hnd,
      msLookup_extractSlaveGauge _ st s hs hnd,
      msLookup_extractSlaveGauge _ st s hs hnd,
      msLookup_extractSlaveGauge _ st s hs hnd,
      msLookup_extractSlaveGauge _ st s hs hnd,
      msLookup_extractSlaveGauge _ st s hs hnd,
      msLookup_extractSlaveGauge _ st s hs hnd,
      msLookup_extractSlaveGauge _ st s hs hnd,
      msLookup_extractSlaveGauge _ st s hs hnd⟩
  · intro fw hf hnd
    exact ⟨msLookup_extractFrameworkGauge _ st fw hf hnd,
      msLookup_extractFrameworkGauge _ st fw hf hnd,
      msLookup_extractFrameworkGauge _ st fw hf hnd,
      msLookup_extractFrameworkGauge _ st fw hf hnd,
      msLookup_extractFrameworkGauge _ st fw hf hnd,
      msLookup_extractFrameworkGauge _ st fw hf hnd⟩

theorem resource_unit_conversion_witness :
    msLookup (runMetric [] metricId.slave_mem_bytes stateW []) ["s1", "h1"] = some 2048
    ∧ msLookup (runMetric [] metricId.framework_mem_used stateW []) ["fw"] = some 7 := by
  constructor
  · have h := ((resource_unit_conversion [] stateW []).1 slaveM
      (by simp [stateW]) (by decide)).2.2.2.1
    rw [show ([slaveM.pid, slaveM.hostname] : List String) = ["s1", "h1"] from rfl] at h
    rw [h]
    norm_num [slaveM]
  · have h := ((resource_unit_conversion [] stateW []).2 frameworkW
      (by simp [stateW]) (by decide)).2.1
    rw [show ([frameworkW.name] : List String) = ["fw"] from rfl] at h
    rw [h]
    rfl

/-- C6: the dynamic attribute metric's extraction emits, per slave, a
record of constant value `1` in which a value is present for every fixed
label of the metric, an allow-listed label defaulting to `""` when the
slave has no string-valued attribute normalising to it; the sample keys
are exactly the per-slave records (one per distinct record). -/
theorem slave_attributes_extraction :
    ∀ (al : List String) (st : state),
      (∀ s ∈ st.slaves,
        msLookup (runSlaveAttributes al st []) (slaveAttrRecord al s) = some 1
        ∧ (slaveAttrRecord al s).length = (labels ++ normaliseLabelList al).length
        ∧ (∀ l ∈ normaliseLabelList al,
            (∀ kv ∈ s.attributes, normaliseLabel kv.1 = l → attributeString kv.2 = none) →
            mapGet (slaveAttributeLabelMap (normaliseLabelList al) s) l = ""))
      ∧ (∀ p ∈ runSlaveAttributes al st [], p.2 = 1)
      ∧ (∀ k, k ∈ msKeys (runSlaveAttributes al st [])
          ↔ k ∈ st.slaves.map (slaveAttrRecord al))
      ∧ ((st.slaves.map (slaveAttrRecord al)).Nodup →
          (runSlaveAttributes al st []).length = st.slaves.length) := by
  intro al st
  have hkeysiff : ∀ k, k ∈ msKeys (runSlaveAttributes al st [])
      ↔ k ∈ st.slaves.map (slaveAttrRecord al) := by
    intro k
    have h := mem_msKeys_foldl (slaveAttrRecord al) (fun _ => (1 : Rat)) st.slaves [] k
    simpa [runSlaveAttributes, msKeys] using h
  have hval1 : ∀ p ∈ runSlaveAttributes al st [], p.2 = 1 := by
    intro p hp
    rcases mem_foldl_gvSet (slaveAttrRecord al) (fun _ => (1 : Rat)) st.slaves [] p hp
        with h | ⟨e, _, hpe⟩
    · simp at h
    · simp [hpe]
  refine ⟨?_, hval1, hkeysiff, ?_⟩
  · intro s hs
    refine ⟨?_, ?_, ?_⟩
    · have hk : slaveAttrRecord al s ∈ msKeys (runSlaveAttributes al st []) :=
        (hkeysiff _).mpr (List.mem_map_of_mem _ hs)
      have hsome := msLookup_isSome_of_mem_keys _ _ hk
      obtain ⟨v, hv⟩ := Option.isSome_iff_exists.mp hsome
      have hmem := msLookup_eq_some_mem _ _ _ hv
      have hv1 : v = 1 := by simpa using hval1 _ hmem
      rw [hv, hv1]
    · simp [slaveAttrRecord, getLabelValuesFromMap]
    · intro l hl hnone
      unfold slaveAttributeLabelMap
      rw [mapGet_attrFold_preserve (normaliseLabelList al) s.attributes _ l hnone,
        mapGet_foldl_default (normaliseLabelList al) _ l hl]
  · intro hnd
    have h := length_foldl_gvSet (slaveAttrRecord al) (fun _ => (1 : Rat)) st.slaves []
      hnd (by simp [msKeys])
    simpa [runSlaveAttributes] using h

theorem slave_attributes_extraction_witness :
    msLookup (runSlaveAttributes ["rack"] stateW []) (slaveAttrRecord ["rack"] slaveM)
      = some 1
    ∧ (runSlaveAttributes ["rack"] stateW []).length = stateW.slaves.length :=
  ⟨((slave_attributes_extraction ["rack"] stateW).1 slaveM (by simp [stateW])).1,
    (slave_attributes_extraction ["rack"] stateW).2.2.2 (by decide)⟩
